import Mathlib

/-!
Verification of an LFU (least-frequently-used) cache with LRU tie-breaking.

The cache under study keeps
  - a hash map from keys to a value together with an access counter,
  - a hash map from frequencies to an insertion-ordered set of keys
    (front = oldest member),
  - a fixed capacity, and
  - a running minimal-frequency watermark.

We model both hash maps as association lists (the iteration order of the
hash maps is irrelevant to every property proved here) and the ordered
key sets as duplicate-free lists whose head is the oldest member.
Operations that can hit an unconditional unwrap in the original code are
modelled in the Option monad, with none standing for the fatal stop.
-/

set_option autoImplicit false

section Model

variable {K A : Type} [DecidableEq K]

/-- Lookup in an association list, first matching key wins (hash maps have
unique keys, which the well-formedness predicate below records). -/
def lookupKV : List (K × A) → K → Option A
  | [], _ => none
  | (k', a) :: rest, k => if k = k' then some a else lookupKV rest k

/-- Insertion into an association list: replace the binding in place when the
key is present, append otherwise. -/
def insertKV : List (K × A) → K → A → List (K × A)
  | [], k, a => [(k, a)]
  | (k', a') :: rest, k, a =>
      if k = k' then (k, a) :: rest else (k', a') :: insertKV rest k a

/-- Deletion from an association list. -/
def removeKV (l : List (K × A)) (k : K) : List (K × A) :=
  l.filter (fun p => decide (p.1 ≠ k))

/-- Removal from an insertion-ordered key set (order of the survivors kept). -/
def lhsRemove (b : List K) (k : K) : List K :=
  b.filter (fun x => decide (x ≠ k))

/-- Insertion into an insertion-ordered key set: appended at the back when
absent (becoming the newest member), left in place when present. -/
def lhsInsert (b : List K) (k : K) : List K :=
  if k ∈ b then b else b ++ [k]

end Model


/-- A stored value together with its access counter. -/
structure ValueCounter (V : Type) where
  value : V
  count : Nat
deriving DecidableEq

/-- The cache state: value store, frequency index, capacity, watermark. -/
structure LFUCache (K V : Type) where
  values : List (K × ValueCounter V)
  frequency_bin : List (Nat × List K)
  capacity : Nat
  min_frequency : Nat
deriving DecidableEq

namespace LFUCache

variable {K V : Type} [DecidableEq K]

/-- Construction: a zero capacity is a fatal error, otherwise the cache
starts empty with the watermark at 0. -/
def with_capacity (capacity : Nat) : Option (LFUCache K V) :=
  if capacity ≤ 0 then none
  else some ⟨[], [], capacity, 0⟩

/-- Membership test on the value store; takes the cache immutably. -/
def contains (s : LFUCache K V) (key : K) : Bool :=
  (lookupKV s.values key).isSome

/-- Number of live entries; takes the cache immutably. -/
def len (s : LFUCache K V) : Nat :=
  s.values.length

/-- Removal: when the key is present, drop it from the bucket of its current
count (the bucket entry being materialised by or-default first) and from the
store.  The result flag is false on every path. -/
def remove (s : LFUCache K V) (key : K) : Bool × LFUCache K V :=
  match lookupKV s.values key with
  | none => (false, s)
  | some value_counter =>
      (false,
       ⟨removeKV s.values key,
        insertKV s.frequency_bin value_counter.count
          (lhsRemove ((lookupKV s.frequency_bin value_counter.count).getD []) key),
        s.capacity,
        s.min_frequency⟩)

/-- Move a key one bucket up: remove it from the bucket of its current count
(both unconditional lookups can stop fatally), advance the watermark when the
key drained the watermark's bucket, bump the counter, and append the key to
the next bucket. -/
def update_frequency_bin (s : LFUCache K V) (key : K) : Option (LFUCache K V) :=
  match lookupKV s.values key with
  | none => none
  | some value_counter =>
      match lookupKV s.frequency_bin value_counter.count with
      | none => none
      | some bin =>
          let bin' := lhsRemove bin key
          let count := value_counter.count
          let min' := if count = s.min_frequency ∧ bin' = []
                      then s.min_frequency + 1 else s.min_frequency
          let fb1 := insertKV s.frequency_bin count bin'
          some ⟨insertKV s.values key ⟨value_counter.value, count + 1⟩,
                insertKV fb1 (count + 1)
                  (lhsInsert ((lookupKV fb1 (count + 1)).getD []) key),
                s.capacity,
                min'⟩

/-- Read access: a miss is a normal absent result that leaves the cache
untouched, a hit moves the key one bucket up and returns its value. -/
def get (s : LFUCache K V) (key : K) : Option (Option V × LFUCache K V) :=
  match lookupKV s.values key with
  | none => some (none, s)
  | some _ =>
      match update_frequency_bin s key with
      | none => none
      | some s1 => some ((lookupKV s1.values key).map ValueCounter.value, s1)

/-- Mutable read access: same state transition as a plain read. -/
def get_mut (s : LFUCache K V) (key : K) : Option (Option V × LFUCache K V) :=
  match lookupKV s.values key with
  | none => some (none, s)
  | some _ =>
      match update_frequency_bin s key with
      | none => none
      | some s1 => some ((lookupKV s1.values key).map ValueCounter.value, s1)

/-- Eviction: pop the oldest member of the watermark's bucket and delete it
from the store; both unwraps (missing bucket, empty bucket) stop fatally. -/
def evict (s : LFUCache K V) : Option (LFUCache K V) :=
  match lookupKV s.frequency_bin s.min_frequency with
  | none => none
  | some bin =>
      match bin with
      | [] => none
      | least_recently_used :: rest =>
          some ⟨removeKV s.values least_recently_used,
                insertKV s.frequency_bin s.min_frequency rest,
                s.capacity,
                s.min_frequency⟩

/-- Writing: an existing key has its value overwritten and is moved one
bucket up; a fresh key triggers an eviction when the cache is full, then is
stored with count 1, the watermark is reset to 1 and the key is appended to
bucket 1. -/
def set (s : LFUCache K V) (key : K) (value : V) : Option (LFUCache K V) :=
  match lookupKV s.values key with
  | some value_counter =>
      update_frequency_bin
        ⟨insertKV s.values key ⟨value, value_counter.count⟩,
         s.frequency_bin, s.capacity, s.min_frequency⟩ key
  | none =>
      match (if s.capacity ≤ s.values.length then evict s else some s) with
      | none => none
      | some s2 =>
          some ⟨insertKV s2.values key ⟨value, 1⟩,
                insertKV s2.frequency_bin 1
                  (lhsInsert ((lookupKV s2.frequency_bin 1).getD []) key),
                s2.capacity,
                1⟩

end LFUCache

/-- One public operation of the cache interface. -/
inductive Op (K V : Type) where
  | setOp (k : K) (v : V)
  | getOp (k : K)
  | getMutOp (k : K)
  | removeOp (k : K)
  | evictOp
deriving DecidableEq

variable {K V : Type} [DecidableEq K]

/-- Apply one public operation; none is a fatal stop. -/
def applyOp (s : LFUCache K V) : Op K V → Option (LFUCache K V)
  | Op.setOp k v => s.set k v
  | Op.getOp k => (s.get k).map Prod.snd
  | Op.getMutOp k => (s.get_mut k).map Prod.snd
  | Op.removeOp k => some (s.remove k).2
  | Op.evictOp => s.evict

/-- Run a list of public operations. -/
def runOps (s : LFUCache K V) : List (Op K V) → Option (LFUCache K V)
  | [] => some s
  | op :: rest =>
      match applyOp s op with
      | none => none
      | some s' => runOps s' rest

/-- Run a list of writes. -/
def runSets (s : LFUCache K V) : List (K × V) → Option (LFUCache K V)
  | [] => some s
  | (k, v) :: rest =>
      match s.set k v with
      | none => none
      | some s' => runSets s' rest


/-- Well-formedness of a cache state.  These are exactly the facts preserved
by every public operation (including remove and evict): unique keys in both
maps, duplicate-free buckets, the two-way store/index correspondence, counts
at least 1, the watermark a lower bound on all counts, the store within
capacity, a positive capacity, and a non-empty watermark bucket whenever the
store is at capacity (so the eviction inside a write cannot stop fatally). -/
abbrev WF (s : LFUCache K V) : Prop :=
  (s.values.map Prod.fst).Nodup ∧
  (s.frequency_bin.map Prod.fst).Nodup ∧
  (∀ q ∈ s.frequency_bin, q.2.Nodup) ∧
  (∀ p ∈ s.values, p.1 ∈ (lookupKV s.frequency_bin p.2.count).getD []) ∧
  (∀ q ∈ s.frequency_bin, ∀ x ∈ q.2,
      (lookupKV s.values x).map ValueCounter.count = some q.1) ∧
  (∀ p ∈ s.values, 1 ≤ p.2.count) ∧
  (∀ p ∈ s.values, s.min_frequency ≤ p.2.count) ∧
  s.values.length ≤ s.capacity ∧
  1 ≤ s.capacity ∧
  (s.capacity ≤ s.values.length →
     (lookupKV s.frequency_bin s.min_frequency).getD [] ≠ [])

/-- Invariant 3 of the specification: whenever the store is non-empty, the
watermark names the smallest frequency whose bucket is non-empty. -/
abbrev MinInv (s : LFUCache K V) : Prop :=
  s.values ≠ [] →
    ((lookupKV s.frequency_bin s.min_frequency).getD [] ≠ [] ∧
     ∀ q ∈ s.frequency_bin, q.2 ≠ [] → s.min_frequency ≤ q.1)

/-- The empty cache of capacity 2 (what construction with capacity 2 yields). -/
def emptyCache2 : LFUCache Nat Nat := ⟨[], [], 2, 0⟩

/-- The state reached from the empty capacity-2 cache by the writes 1 and 2,
a read of 1 and a removal of 2: the store still holds key 1 (count 2) but the
watermark is the stale value 1 whose bucket has been drained. -/
def staleState : LFUCache Nat Nat :=
  ⟨[(1, ⟨1, 2⟩)], [(1, []), (2, [1])], 2, 1⟩

/-- The state reached from the empty capacity-2 cache by writing key 1. -/
def oneKeyState : LFUCache Nat Nat :=
  ⟨[(1, ⟨1, 1⟩)], [(1, [1])], 2, 1⟩

/-- Calling contains as a state transition: the call takes the cache by
immutable borrow, so the cache after the call is the cache before it. -/
def containsOp (s : LFUCache K V) (k : K) : Bool × LFUCache K V :=
  (LFUCache.contains s k, s)

/-- Calling len as a state transition: same immutable borrow as contains. -/
def lenOp (s : LFUCache K V) : Nat × LFUCache K V :=
  (LFUCache.len s, s)

section ModelLemmas

variable {K A : Type} [DecidableEq K]

theorem lookup_insertKV_self (l : List (K × A)) (k : K) (a : A) :
    lookupKV (insertKV l k a) k = some a := by
  induction l with
  | nil => simp [insertKV, lookupKV]
  | cons p rest ih =>
      obtain ⟨k', a'⟩ := p
      by_cases h : k = k'
      · simp [insertKV, h, lookupKV]
      · simp [insertKV, h, lookupKV, ih]

theorem lookup_insertKV_ne {k1 k : K} (l : List (K × A)) (a : A) (h : k1 ≠ k) :
    lookupKV (insertKV l k a) k1 = lookupKV l k1 := by
  induction l with
  | nil => simp [insertKV, lookupKV, h]
  | cons p rest ih =>
      obtain ⟨k', a'⟩ := p
      by_cases hk : k = k'
      · subst hk
        simp [insertKV, lookupKV, h]
      · by_cases h1 : k1 = k'
        · simp [insertKV, lookupKV, hk, h1]
        · simp [insertKV, lookupKV, hk, h1, ih]

theorem lookup_removeKV_self (l : List (K × A)) (k : K) :
    lookupKV (removeKV l k) k = none := by
  induction l with
  | nil => simp [removeKV, lookupKV]
  | cons p rest ih =>
      obtain ⟨k', a'⟩ := p
      by_cases h : k' = k
      · simpa [removeKV, h] using ih
      · have : k ≠ k' := fun hh => h hh.symm
        simpa [removeKV, lookupKV, h, this] using ih

theorem lookup_removeKV_ne {k1 k : K} (l : List (K × A)) (h : k1 ≠ k) :
    lookupKV (removeKV l k) k1 = lookupKV l k1 := by
  induction l with
  | nil => simp [removeKV]
  | cons p rest ih =>
      obtain ⟨k', a'⟩ := p
      by_cases hk : k' = k
      · subst hk
        have : k1 ≠ k' := h
        simpa [removeKV, lookupKV, this] using ih
      · by_cases h1 : k1 = k'
        · simp [removeKV, lookupKV, hk, h1]
        · simpa [removeKV, lookupKV, hk, h1] using ih

theorem lookup_eq_none_iff (l : List (K × A)) (k : K) :
    lookupKV l k = none ↔ k ∉ l.map Prod.fst := by
  induction l with
  | nil => simp [lookupKV]
  | cons p rest ih =>
      obtain ⟨k', a'⟩ := p
      by_cases h : k = k'
      · simp [lookupKV, h]
      · simp [lookupKV, h, ih]

theorem lookup_mem {l : List (K × A)} {k : K} {a : A}
    (h : lookupKV l k = some a) : (k, a) ∈ l := by
  induction l with
  | nil => simp [lookupKV] at h
  | cons p rest ih =>
      obtain ⟨k', a'⟩ := p
      by_cases hk : k = k'
      · simp [lookupKV, hk] at h
        subst hk; subst h
        exact List.mem_cons_self _ _
      · simp [lookupKV, hk] at h
        exact List.mem_cons_of_mem _ (ih h)

theorem mem_lookup {l : List (K × A)} {k : K} {a : A}
    (hnd : (l.map Prod.fst).Nodup) (h : (k, a) ∈ l) : lookupKV l k = some a := by
  induction l with
  | nil => simp at h
  | cons p rest ih =>
      obtain ⟨k', a'⟩ := p
      simp only [List.map_cons, List.nodup_cons] at hnd
      rcases List.mem_cons.mp h with h1 | h1
      · rw [Prod.mk.injEq] at h1
        simp [lookupKV, h1.1, h1.2]
      · have hk : k ≠ k' := by
          intro hk
          subst hk
          exact hnd.1 (List.mem_map.mpr ⟨(k, a), h1, rfl⟩)
        simp [lookupKV, hk]
        exact ih hnd.2 h1

theorem keys_insertKV_mem {l : List (K × A)} {k : K} (a : A)
    (h : k ∈ l.map Prod.fst) : (insertKV l k a).map Prod.fst = l.map Prod.fst := by
  induction l with
  | nil => simp at h
  | cons p rest ih =>
      obtain ⟨k', a'⟩ := p
      by_cases hk : k = k'
      · simp [insertKV, hk]
      · simp only [List.map_cons, List.mem_cons] at h
        rcases h with h | h
        · exact absurd h hk
        · simp [insertKV, hk, ih h]

theorem keys_insertKV_not_mem {l : List (K × A)} {k : K} (a : A)
    (h : k ∉ l.map Prod.fst) :
    (insertKV l k a).map Prod.fst = l.map Prod.fst ++ [k] := by
  induction l with
  | nil => simp [insertKV]
  | cons p rest ih =>
      obtain ⟨k', a'⟩ := p
      simp only [List.map_cons, List.mem_cons] at h
      push_neg at h
      simp [insertKV, h.1, ih h.2]

theorem nodup_keys_insertKV {l : List (K × A)} {k : K} (a : A)
    (h : (l.map Prod.fst).Nodup) : ((insertKV l k a).map Prod.fst).Nodup := by
  by_cases hk : k ∈ l.map Prod.fst
  · rw [keys_insertKV_mem a hk]; exact h
  · rw [keys_insertKV_not_mem a hk]
    rw [List.nodup_append]
    refine ⟨h, List.nodup_singleton k, ?_⟩
    intro x hx hmem
    simp only [List.mem_singleton] at hmem
    subst hmem
    exact hk hx

theorem length_insertKV_mem {l : List (K × A)} {k : K} (a : A)
    (h : k ∈ l.map Prod.fst) : (insertKV l k a).length = l.length := by
  have h1 : ((insertKV l k a).map Prod.fst).length = (l.map Prod.fst).length := by
    rw [keys_insertKV_mem a h]
  simpa using h1

theorem length_insertKV_not_mem {l : List (K × A)} {k : K} (a : A)
    (h : k ∉ l.map Prod.fst) : (insertKV l k a).length = l.length + 1 := by
  have h1 : ((insertKV l k a).map Prod.fst).length = (l.map Prod.fst ++ [k]).length := by
    rw [keys_insertKV_not_mem a h]
  simpa using h1

theorem mem_insertKV_of_mem {l : List (K × A)} {p : K × A} {k : K} (a : A)
    (h : p ∈ l) (hne : p.1 ≠ k) : p ∈ insertKV l k a := by
  induction l with
  | nil => simp at h
  | cons q rest ih =>
      obtain ⟨k', a'⟩ := q
      by_cases hk : k = k'
      · subst hk
        simp only [insertKV, if_pos rfl]
        rcases List.mem_cons.mp h with h1 | h1
        · exact absurd (congrArg Prod.fst h1) hne
        · exact List.mem_cons_of_mem _ h1
      · simp only [insertKV, if_neg hk]
        rcases List.mem_cons.mp h with h1 | h1
        · exact h1 ▸ List.mem_cons_self _ _
        · exact List.mem_cons_of_mem _ (ih h1)

theorem mem_insertKV_nodup {l : List (K × A)} {p : K × A} {k : K} {a : A}
    (hnd : (l.map Prod.fst).Nodup) (h : p ∈ insertKV l k a) :
    p = (k, a) ∨ (p ∈ l ∧ p.1 ≠ k) := by
  have hnd' : ((insertKV l k a).map Prod.fst).Nodup := nodup_keys_insertKV a hnd
  have hp : (p.1, p.2) ∈ insertKV l k a := by simpa using h
  have hl := mem_lookup hnd' hp
  by_cases hk : p.1 = k
  · left
    rw [hk, lookup_insertKV_self] at hl
    have := Option.some.inj hl
    calc p = (p.1, p.2) := rfl
    _ = (k, a) := by rw [hk, this]
  · right
    rw [lookup_insertKV_ne l a hk] at hl
    exact ⟨by simpa using lookup_mem hl, hk⟩

theorem removeKV_eq_self {l : List (K × A)} {k : K}
    (h : k ∉ l.map Prod.fst) : removeKV l k = l := by
  apply List.filter_eq_self.mpr
  intro p hp
  have : p.1 ≠ k := by
    intro hh
    exact h (List.mem_map.mpr ⟨p, hp, hh⟩)
  simpa using this

theorem mem_removeKV {l : List (K × A)} {p : K × A} {k : K} :
    p ∈ removeKV l k ↔ p ∈ l ∧ p.1 ≠ k := by
  simp [removeKV, List.mem_filter]

theorem removeKV_sublist (l : List (K × A)) (k : K) :
    List.Sublist (removeKV l k) l :=
  List.filter_sublist l

theorem nodup_keys_removeKV {l : List (K × A)} (k : K)
    (h : (l.map Prod.fst).Nodup) : ((removeKV l k).map Prod.fst).Nodup :=
  ((removeKV_sublist l k).map Prod.fst).nodup h

theorem length_removeKV {l : List (K × A)} {k : K} {a : A}
    (hnd : (l.map Prod.fst).Nodup) (h : lookupKV l k = some a) :
    (removeKV l k).length + 1 = l.length := by
  induction l with
  | nil => simp [lookupKV] at h
  | cons p rest ih =>
      obtain ⟨k', a'⟩ := p
      rw [List.map_cons, List.nodup_cons] at hnd
      by_cases hk : k' = k
      · subst hk
        have hrest : removeKV rest k' = rest := removeKV_eq_self hnd.1
        have hdrop : removeKV ((k', a') :: rest) k' = removeKV rest k' := by
          unfold removeKV
          rw [List.filter_cons]
          simp
        rw [hdrop, hrest]
        simp
      · have hne : k ≠ k' := fun hh => hk hh.symm
        simp only [lookupKV, if_neg hne] at h
        have hlen := ih hnd.2 h
        have hkeep : removeKV ((k', a') :: rest) k = (k', a') :: removeKV rest k := by
          unfold removeKV
          rw [List.filter_cons]
          simp [hk]
        rw [hkeep]
        simp only [List.length_cons]
        omega

theorem mem_lhsInsert {b : List K} {x k : K} :
    x ∈ lhsInsert b k ↔ x ∈ b ∨ x = k := by
  unfold lhsInsert
  split
  · rename_i h
    constructor
    · exact fun hx => Or.inl hx
    · rintro (hx | rfl)
      · exact hx
      · exact h
  · simp

theorem lhsInsert_ne_nil (b : List K) (k : K) : lhsInsert b k ≠ [] := by
  unfold lhsInsert
  split
  · rename_i h
    intro hb
    rw [hb] at h
    simp at h
  · simp

theorem nodup_lhsInsert {b : List K} {k : K} (h : b.Nodup) :
    (lhsInsert b k).Nodup := by
  unfold lhsInsert
  split
  · exact h
  · rename_i hk
    rw [List.nodup_append]
    refine ⟨h, List.nodup_singleton k, ?_⟩
    intro x hx hmem
    simp only [List.mem_singleton] at hmem
    subst hmem
    exact hk hx

theorem mem_lhsRemove {b : List K} {x k : K} :
    x ∈ lhsRemove b k ↔ x ∈ b ∧ x ≠ k := by
  simp [lhsRemove, List.mem_filter]

theorem nodup_lhsRemove {b : List K} (k : K) (h : b.Nodup) :
    (lhsRemove b k).Nodup :=
  (List.filter_sublist b).nodup h

theorem lhsRemove_eq_nil {b : List K} {k x : K}
    (h : lhsRemove b k = []) (hx : x ∈ b) : x = k := by
  by_contra hne
  have : x ∈ lhsRemove b k := mem_lhsRemove.mpr ⟨hx, hne⟩
  rw [h] at this
  simp at this

end ModelLemmas
section CacheLemmas

variable {K V : Type} [DecidableEq K]

theorem mem_option_getD {o : Option (List K)} {x : K}
    (h : x ∈ o.getD []) : ∃ b, o = some b ∧ x ∈ b := by
  cases o with
  | none => simp at h
  | some b => exact ⟨b, rfl, by simpa using h⟩

theorem getD_ne_nil {o : Option (List K)}
    (h : o.getD [] ≠ []) : ∃ b, o = some b ∧ b ≠ [] := by
  cases o with
  | none => simp at h
  | some b => exact ⟨b, rfl, by simpa using h⟩

theorem update_frequency_bin_eq {s : LFUCache K V} {key : K}
    {vc : ValueCounter V} {bin : List K}
    (hk : lookupKV s.values key = some vc)
    (hbin : lookupKV s.frequency_bin vc.count = some bin) :
    LFUCache.update_frequency_bin s key =
      some ⟨insertKV s.values key ⟨vc.value, vc.count + 1⟩,
            insertKV (insertKV s.frequency_bin vc.count (lhsRemove bin key))
              (vc.count + 1)
              (lhsInsert
                ((lookupKV (insertKV s.frequency_bin vc.count (lhsRemove bin key))
                    (vc.count + 1)).getD []) key),
            s.capacity,
            if vc.count = s.min_frequency ∧ lhsRemove bin key = []
            then s.min_frequency + 1 else s.min_frequency⟩ := by
  simp only [LFUCache.update_frequency_bin, hk, hbin]

theorem evict_eq {s : LFUCache K V} {k0 : K} {rest : List K}
    (hbin : lookupKV s.frequency_bin s.min_frequency = some (k0 :: rest)) :
    LFUCache.evict s =
      some ⟨removeKV s.values k0,
            insertKV s.frequency_bin s.min_frequency rest,
            s.capacity,
            s.min_frequency⟩ := by
  simp only [LFUCache.evict, hbin]

theorem remove_eq_present {s : LFUCache K V} {key : K} {vc : ValueCounter V}
    (hk : lookupKV s.values key = some vc) :
    LFUCache.remove s key =
      (false,
       ⟨removeKV s.values key,
        insertKV s.frequency_bin vc.count
          (lhsRemove ((lookupKV s.frequency_bin vc.count).getD []) key),
        s.capacity,
        s.min_frequency⟩) := by
  simp only [LFUCache.remove, hk]

theorem remove_eq_absent {s : LFUCache K V} {key : K}
    (hk : lookupKV s.values key = none) :
    LFUCache.remove s key = (false, s) := by
  simp only [LFUCache.remove, hk]

theorem set_eq_new {s : LFUCache K V} {key : K} {value : V}
    {s2 : LFUCache K V}
    (hk : lookupKV s.values key = none)
    (hstep : (if s.capacity ≤ s.values.length
              then LFUCache.evict s else some s) = some s2) :
    LFUCache.set s key value =
      some ⟨insertKV s2.values key ⟨value, 1⟩,
            insertKV s2.frequency_bin 1
              (lhsInsert ((lookupKV s2.frequency_bin 1).getD []) key),
            s2.capacity,
            1⟩ := by
  simp only [LFUCache.set, hk, hstep]

theorem set_eq_existing {s : LFUCache K V} {key : K} {value : V}
    {vc : ValueCounter V}
    (hk : lookupKV s.values key = some vc) :
    LFUCache.set s key value =
      LFUCache.update_frequency_bin
        ⟨insertKV s.values key ⟨value, vc.count⟩,
         s.frequency_bin, s.capacity, s.min_frequency⟩ key := by
  simp only [LFUCache.set, hk]

theorem get_eq_absent {s : LFUCache K V} {key : K}
    (hk : lookupKV s.values key = none) :
    LFUCache.get s key = some (none, s) := by
  simp only [LFUCache.get, hk]

theorem get_eq_present {s : LFUCache K V} {key : K} {vc : ValueCounter V}
    {s1 : LFUCache K V}
    (hk : lookupKV s.values key = some vc)
    (hupd : LFUCache.update_frequency_bin s key = some s1) :
    LFUCache.get s key =
      some ((lookupKV s1.values key).map ValueCounter.value, s1) := by
  simp only [LFUCache.get, hk, hupd]

theorem get_mut_eq_absent {s : LFUCache K V} {key : K}
    (hk : lookupKV s.values key = none) :
    LFUCache.get_mut s key = some (none, s) := by
  simp only [LFUCache.get_mut, hk]

theorem get_mut_eq_present {s : LFUCache K V} {key : K} {vc : ValueCounter V}
    {s1 : LFUCache K V}
    (hk : lookupKV s.values key = some vc)
    (hupd : LFUCache.update_frequency_bin s key = some s1) :
    LFUCache.get_mut s key =
      some ((lookupKV s1.values key).map ValueCounter.value, s1) := by
  simp only [LFUCache.get_mut, hk, hupd]

end CacheLemmas

section PreservationLemmas

variable {K V : Type} [DecidableEq K]

theorem WF_bump {s : LFUCache K V} {key : K} {vc : ValueCounter V}
    {bin rem newb : List K} {fb1 fb2 : List (Nat × List K)}
    {vals2 : List (K × ValueCounter V)} {m2 : Nat}
    (hwf : WF s)
    (hk : lookupKV s.values key = some vc)
    (hbin : lookupKV s.frequency_bin vc.count = some bin)
    (hrem : rem = lhsRemove bin key)
    (hfb1 : fb1 = insertKV s.frequency_bin vc.count rem)
    (hnewb : newb = lhsInsert ((lookupKV fb1 (vc.count + 1)).getD []) key)
    (hfb2 : fb2 = insertKV fb1 (vc.count + 1) newb)
    (hvals2 : vals2 = insertKV s.values key ⟨vc.value, vc.count + 1⟩)
    (hm2 : m2 = if vc.count = s.min_frequency ∧ rem = []
                then s.min_frequency + 1 else s.min_frequency) :
    WF ⟨vals2, fb2, s.capacity, m2⟩ ∧
    s.min_frequency ≤ m2 ∧
    (MinInv s → MinInv ⟨vals2, fb2, s.capacity, m2⟩) ∧
    vals2.length = s.values.length := by
  obtain ⟨hkn, hbn, hbun, hcor, hbs, hpos, hmlb, hlen, hcap, hacm⟩ := hwf
  have hmemk : (key, vc) ∈ s.values := lookup_mem hk
  have hkeymem : key ∈ s.values.map Prod.fst :=
    List.mem_map.mpr ⟨(key, vc), hmemk, rfl⟩
  have hck : key ∈ (lookupKV s.frequency_bin vc.count).getD [] :=
    hcor (key, vc) hmemk
  have hkbin : key ∈ bin := by
    rw [hbin] at hck
    simpa using hck
  have hlkfb1_c1 :
      lookupKV fb1 (vc.count + 1) = lookupKV s.frequency_bin (vc.count + 1) := by
    rw [hfb1]
    exact lookup_insertKV_ne _ _ (by omega)
  have hlkfb2_c1 : lookupKV fb2 (vc.count + 1) = some newb := by
    rw [hfb2]
    exact lookup_insertKV_self _ _ _
  have hlkfb2_c : lookupKV fb2 vc.count = some rem := by
    rw [hfb2, lookup_insertKV_ne _ _ (by omega : vc.count ≠ vc.count + 1), hfb1]
    exact lookup_insertKV_self _ _ _
  have hlkfb2_other : ∀ f, f ≠ vc.count → f ≠ vc.count + 1 →
      lookupKV fb2 f = lookupKV s.frequency_bin f := by
    intro f h1 h2
    rw [hfb2, lookup_insertKV_ne _ _ h2, hfb1, lookup_insertKV_ne _ _ h1]
  have hfb1nd : (fb1.map Prod.fst).Nodup := by
    rw [hfb1]
    exact nodup_keys_insertKV _ hbn
  have hfb2nd : (fb2.map Prod.fst).Nodup := by
    rw [hfb2]
    exact nodup_keys_insertKV _ hfb1nd
  have hvals2nd : (vals2.map Prod.fst).Nodup := by
    rw [hvals2]
    exact nodup_keys_insertKV _ hkn
  have hlkvals2_key : lookupKV vals2 key = some ⟨vc.value, vc.count + 1⟩ := by
    rw [hvals2]
    exact lookup_insertKV_self _ _ _
  have hlkvals2_ne : ∀ x, x ≠ key → lookupKV vals2 x = lookupKV s.values x := by
    intro x hx
    rw [hvals2]
    exact lookup_insertKV_ne _ _ hx
  have hkey_not_c1 : ∀ ob, lookupKV s.frequency_bin (vc.count + 1) = some ob →
      key ∉ ob := by
    intro ob hob hkob
    have hh : (lookupKV s.values key).map ValueCounter.count = some (vc.count + 1) :=
      hbs (vc.count + 1, ob) (lookup_mem hob) key hkob
    rw [hk] at hh
    simp at hh
  have hlen2 : vals2.length = s.values.length := by
    rw [hvals2]
    exact length_insertKV_mem _ hkeymem
  have hmem_fb2 : ∀ q, q ∈ fb2 →
      q = (vc.count + 1, newb) ∨ (q ∈ fb1 ∧ q.1 ≠ vc.count + 1) := by
    intro q hq
    rw [hfb2] at hq
    exact mem_insertKV_nodup hfb1nd hq
  have hmem_fb1 : ∀ q, q ∈ fb1 →
      q = (vc.count, rem) ∨ (q ∈ s.frequency_bin ∧ q.1 ≠ vc.count) := by
    intro q hq
    rw [hfb1] at hq
    exact mem_insertKV_nodup hbn hq
  have hmem_vals2 : ∀ p, p ∈ vals2 →
      p = (key, ⟨vc.value, vc.count + 1⟩) ∨ (p ∈ s.values ∧ p.1 ≠ key) := by
    intro p hp
    rw [hvals2] at hp
    exact mem_insertKV_nodup hkn hp
  have hnewb_decomp : ∀ x, x ∈ newb →
      x = key ∨ ∃ ob, lookupKV s.frequency_bin (vc.count + 1) = some ob ∧ x ∈ ob := by
    intro x hx
    rw [hnewb] at hx
    rcases mem_lhsInsert.mp hx with hx1 | hx1
    · right
      obtain ⟨ob, hob, hxob⟩ := mem_option_getD hx1
      rw [hlkfb1_c1] at hob
      exact ⟨ob, hob, hxob⟩
    · left
      exact hx1
  have hkey_newb : key ∈ newb := by
    rw [hnewb]
    exact mem_lhsInsert.mpr (Or.inr rfl)
  have hnewb_nonnil : newb ≠ [] := by
    rw [hnewb]
    exact lhsInsert_ne_nil _ _
  have hrem_sub : ∀ x, x ∈ rem → x ∈ bin ∧ x ≠ key := by
    intro x hx
    rw [hrem] at hx
    exact mem_lhsRemove.mp hx
  have hbin_mem_fb : (vc.count, bin) ∈ s.frequency_bin := lookup_mem hbin
  have hm_le_c : s.min_frequency ≤ vc.count := hmlb (key, vc) hmemk
  refine ⟨⟨hvals2nd, hfb2nd, ?_, ?_, ?_, ?_, ?_, ?_, hcap, ?_⟩, ?_, ?_, hlen2⟩
  · -- every bucket is duplicate-free
    intro q hq
    rcases hmem_fb2 q hq with rfl | ⟨hq1, hqne⟩
    · show newb.Nodup
      rw [hnewb]
      apply nodup_lhsInsert
      rw [hlkfb1_c1]
      cases hob : lookupKV s.frequency_bin (vc.count + 1) with
      | none => simp
      | some ob => simpa using hbun (vc.count + 1, ob) (lookup_mem hob)
    · rcases hmem_fb1 q hq1 with rfl | ⟨hq2, hq2ne⟩
      · show rem.Nodup
        rw [hrem]
        exact nodup_lhsRemove _ (hbun (vc.count, bin) hbin_mem_fb)
      · exact hbun q hq2
  · -- every stored key sits in the bucket of its count
    intro p hp
    rcases hmem_vals2 p hp with rfl | ⟨hpl, hpne⟩
    · show key ∈ (lookupKV fb2 (vc.count + 1)).getD []
      rw [hlkfb2_c1]
      simpa using hkey_newb
    · have hcp : p.1 ∈ (lookupKV s.frequency_bin p.2.count).getD [] := hcor p hpl
      obtain ⟨ob, hob, hpob⟩ := mem_option_getD hcp
      by_cases hd1 : p.2.count = vc.count
      · rw [hd1, hlkfb2_c]
        rw [hd1, hbin] at hob
        have hobbin : bin = ob := Option.some.inj hob
        show p.1 ∈ rem
        rw [hrem]
        exact mem_lhsRemove.mpr ⟨hobbin ▸ hpob, hpne⟩
      · by_cases hd2 : p.2.count = vc.count + 1
        · rw [hd2, hlkfb2_c1]
          show p.1 ∈ newb
          rw [hnewb]
          apply mem_lhsInsert.mpr
          left
          rw [hlkfb1_c1, ← hd2, hob]
          simpa using hpob
        · rw [hlkfb2_other _ hd1 hd2, hob]
          simpa using hpob
  · -- every bucket member is stored with that very count
    intro q hq x hx
    rcases hmem_fb2 q hq with rfl | ⟨hq1, hqne⟩
    · rcases hnewb_decomp x hx with rfl | ⟨ob, hob, hxob⟩
      · rw [hlkvals2_key]
        simp
      · have hxkey : x ≠ key := by
          rintro rfl
          exact hkey_not_c1 ob hob hxob
        rw [hlkvals2_ne x hxkey]
        exact hbs (vc.count + 1, ob) (lookup_mem hob) x hxob
    · rcases hmem_fb1 q hq1 with rfl | ⟨hq2, hq2ne⟩
      · obtain ⟨hxbin, hxkey⟩ := hrem_sub x hx
        rw [hlkvals2_ne x hxkey]
        exact hbs (vc.count, bin) hbin_mem_fb x hxbin
      · have hbsq : (lookupKV s.values x).map ValueCounter.count = some q.1 :=
          hbs q hq2 x hx
        have hxkey : x ≠ key := by
          rintro rfl
          rw [hk] at hbsq
          simp at hbsq
          exact hq2ne hbsq.symm
        rw [hlkvals2_ne x hxkey]
        exact hbsq
  · -- counts start at 1
    intro p hp
    rcases hmem_vals2 p hp with rfl | ⟨hpl, _⟩
    · show 1 ≤ vc.count + 1
      omega
    · exact hpos p hpl
  · -- the watermark is a lower bound for all counts
    intro p hp
    show m2 ≤ p.2.count
    by_cases hcm : vc.count = s.min_frequency ∧ rem = []
    · rw [hm2, if_pos hcm]
      obtain ⟨hceq, hremnil⟩ := hcm
      rcases hmem_vals2 p hp with rfl | ⟨hpl, hpne⟩
      · show s.min_frequency + 1 ≤ vc.count + 1
        omega
      · have hd : s.min_frequency ≤ p.2.count := hmlb p hpl
        by_cases hdm : p.2.count = s.min_frequency
        · exfalso
          have hcp : p.1 ∈ (lookupKV s.frequency_bin p.2.count).getD [] := hcor p hpl
          rw [hdm, ← hceq, hbin] at hcp
          have hpbin : p.1 ∈ bin := by simpa using hcp
          rw [hrem] at hremnil
          exact hpne (lhsRemove_eq_nil hremnil hpbin)
        · omega
    · rw [hm2, if_neg hcm]
      rcases hmem_vals2 p hp with rfl | ⟨hpl, _⟩
      · show s.min_frequency ≤ vc.count + 1
        omega
      · exact hmlb p hpl
  · -- the store stays within capacity
    show vals2.length ≤ s.capacity
    rw [hlen2]
    exact hlen
  · -- at capacity the watermark's bucket is non-empty
    intro hcaple
    show (lookupKV fb2 m2).getD [] ≠ []
    rw [hlen2] at hcaple
    by_cases hcm : vc.count = s.min_frequency ∧ rem = []
    · rw [hm2, if_pos hcm]
      obtain ⟨hceq, -⟩ := hcm
      have hms : s.min_frequency + 1 = vc.count + 1 := by omega
      rw [hms, hlkfb2_c1]
      simpa using hnewb_nonnil
    · rw [hm2, if_neg hcm]
      by_cases hmc : s.min_frequency = vc.count
      · rw [hmc, hlkfb2_c]
        have hremne : rem ≠ [] := fun hnil => hcm ⟨hmc.symm, hnil⟩
        simpa using hremne
      · by_cases hmc1 : s.min_frequency = vc.count + 1
        · rw [hmc1, hlkfb2_c1]
          simpa using hnewb_nonnil
        · rw [hlkfb2_other _ hmc hmc1]
          exact hacm hcaple
  · -- the watermark never goes down
    rw [hm2]
    split
    · omega
    · omega
  · -- invariant 3 is preserved
    intro hmi hne'
    have hvne : s.values ≠ [] := List.ne_nil_of_mem hmemk
    obtain ⟨hmb, hlb⟩ := hmi hvne
    constructor
    · show (lookupKV fb2 m2).getD [] ≠ []
      by_cases hcm : vc.count = s.min_frequency ∧ rem = []
      · rw [hm2, if_pos hcm]
        obtain ⟨hceq, -⟩ := hcm
        have hms : s.min_frequency + 1 = vc.count + 1 := by omega
        rw [hms, hlkfb2_c1]
        simpa using hnewb_nonnil
      · rw [hm2, if_neg hcm]
        by_cases hmc : s.min_frequency = vc.count
        · rw [hmc, hlkfb2_c]
          have hremne : rem ≠ [] := fun hnil => hcm ⟨hmc.symm, hnil⟩
          simpa using hremne
        · by_cases hmc1 : s.min_frequency = vc.count + 1
          · rw [hmc1, hlkfb2_c1]
            simpa using hnewb_nonnil
          · rw [hlkfb2_other _ hmc hmc1]
            exact hmb
    · intro q hq hqne
      show m2 ≤ q.1
      rcases hmem_fb2 q hq with rfl | ⟨hq1, hqne1⟩
      · show m2 ≤ vc.count + 1
        rw [hm2]
        split
        · rename_i hcm
          obtain ⟨hceq, -⟩ := hcm
          omega
        · omega
      · rcases hmem_fb1 q hq1 with rfl | ⟨hq2, hq2ne⟩
        · show m2 ≤ vc.count
          rw [hm2]
          split
          · rename_i hcm
            exact absurd hcm.2 hqne
          · omega
        · have hmq : s.min_frequency ≤ q.1 := hlb q hq2 hqne
          rw [hm2]
          split
          · rename_i hcm
            obtain ⟨hceq, -⟩ := hcm
            have h1 : q.1 ≠ vc.count := hq2ne
            omega
          · exact hmq

theorem update_frequency_bin_spec {s : LFUCache K V} {key : K}
    {vc : ValueCounter V}
    (hwf : WF s) (hk : lookupKV s.values key = some vc) :
    ∃ s', LFUCache.update_frequency_bin s key = some s' ∧ WF s' ∧
      s'.values = insertKV s.values key ⟨vc.value, vc.count + 1⟩ ∧
      s'.capacity = s.capacity ∧
      s'.values.length = s.values.length ∧
      s.min_frequency ≤ s'.min_frequency ∧
      (MinInv s → MinInv s') := by
  have hcor := hwf.2.2.2.1
  have hck : key ∈ (lookupKV s.frequency_bin vc.count).getD [] :=
    hcor (key, vc) (lookup_mem hk)
  obtain ⟨bin, hbin, hkbin⟩ := mem_option_getD hck
  have hb := WF_bump hwf hk hbin rfl rfl rfl rfl rfl rfl
  rw [update_frequency_bin_eq hk hbin]
  exact ⟨_, rfl, hb.1, rfl, rfl, hb.2.2.2, hb.2.1, hb.2.2.1⟩

end PreservationLemmas

section PreservationLemmas2

variable {K V : Type} [DecidableEq K]

theorem evict_spec {s : LFUCache K V} {k0 : K} {rest : List K}
    (hwf : WF s)
    (hbin : lookupKV s.frequency_bin s.min_frequency = some (k0 :: rest)) :
    ∃ s', LFUCache.evict s = some s' ∧ WF s' ∧
      s'.values = removeKV s.values k0 ∧
      s'.capacity = s.capacity ∧
      s'.min_frequency = s.min_frequency ∧
      s'.values.length + 1 = s.values.length ∧
      (∃ vc0, lookupKV s.values k0 = some vc0 ∧ vc0.count = s.min_frequency) := by
  obtain ⟨hkn, hbn, hbun, hcor, hbs, hpos, hmlb, hlen, hcap, hacm⟩ := hwf
  have hqmem : (s.min_frequency, k0 :: rest) ∈ s.frequency_bin := lookup_mem hbin
  have hk0 : (lookupKV s.values k0).map ValueCounter.count = some s.min_frequency :=
    hbs (s.min_frequency, k0 :: rest) hqmem k0 (by simp)
  obtain ⟨vc0, hvc0, hvc0c⟩ :
      ∃ vc0, lookupKV s.values k0 = some vc0 ∧ vc0.count = s.min_frequency := by
    cases hl : lookupKV s.values k0 with
    | none => rw [hl] at hk0; simp at hk0
    | some vc0 =>
        rw [hl] at hk0
        exact ⟨vc0, rfl, by simpa using hk0⟩
  have hbnd : (k0 :: rest).Nodup := hbun (s.min_frequency, k0 :: rest) hqmem
  have hk0rest : k0 ∉ rest := (List.nodup_cons.mp hbnd).1
  have hlen1 : (removeKV s.values k0).length + 1 = s.values.length :=
    length_removeKV hkn hvc0
  have hlkfb_m : lookupKV (insertKV s.frequency_bin s.min_frequency rest)
      s.min_frequency = some rest := lookup_insertKV_self _ _ _
  have hlkfb_other : ∀ f, f ≠ s.min_frequency →
      lookupKV (insertKV s.frequency_bin s.min_frequency rest) f =
        lookupKV s.frequency_bin f := by
    intro f hf
    exact lookup_insertKV_ne _ _ hf
  have hmem_fb : ∀ q, q ∈ insertKV s.frequency_bin s.min_frequency rest →
      q = (s.min_frequency, rest) ∨ (q ∈ s.frequency_bin ∧ q.1 ≠ s.min_frequency) := by
    intro q hq
    exact mem_insertKV_nodup hbn hq
  rw [evict_eq hbin]
  refine ⟨_, rfl, ⟨?_, ?_, ?_, ?_, ?_, ?_, ?_, ?_, hcap, ?_⟩, rfl, rfl, rfl, hlen1,
    vc0, hvc0, hvc0c⟩
  · exact nodup_keys_removeKV _ hkn
  · exact nodup_keys_insertKV _ hbn
  · intro q hq
    rcases hmem_fb q hq with rfl | ⟨hq1, hq2⟩
    · exact (List.nodup_cons.mp hbnd).2
    · exact hbun q hq1
  · intro p hp
    obtain ⟨hpl, hpne⟩ := mem_removeKV.mp hp
    have hcp : p.1 ∈ (lookupKV s.frequency_bin p.2.count).getD [] := hcor p hpl
    by_cases hd : p.2.count = s.min_frequency
    · rw [hd, hlkfb_m]
      rw [hd, hbin] at hcp
      have hpb : p.1 ∈ k0 :: rest := by simpa using hcp
      rcases List.mem_cons.mp hpb with h1 | h1
      · exact absurd h1 hpne
      · simpa using h1
    · rw [hlkfb_other _ hd]
      exact hcp
  · intro q hq x hx
    rcases hmem_fb q hq with rfl | ⟨hq1, hq2⟩
    · have hxk0 : x ≠ k0 := by
        rintro rfl
        exact hk0rest hx
      rw [lookup_removeKV_ne _ hxk0]
      exact hbs (s.min_frequency, k0 :: rest) hqmem x (List.mem_cons_of_mem _ hx)
    · have hbsq : (lookupKV s.values x).map ValueCounter.count = some q.1 :=
        hbs q hq1 x hx
      have hxk0 : x ≠ k0 := by
        rintro rfl
        rw [hvc0] at hbsq
        simp at hbsq
        rw [hvc0c] at hbsq
        exact hq2 hbsq.symm
      rw [lookup_removeKV_ne _ hxk0]
      exact hbsq
  · intro p hp
    exact hpos p (mem_removeKV.mp hp).1
  · intro p hp
    exact hmlb p (mem_removeKV.mp hp).1
  · show (removeKV s.values k0).length ≤ s.capacity
    omega
  · intro hcaple
    exfalso
    have hcl : s.capacity ≤ (removeKV s.values k0).length := hcaple
    omega

theorem remove_spec_present {s : LFUCache K V} {key : K} {vc : ValueCounter V}
    (hwf : WF s) (hk : lookupKV s.values key = some vc) :
    ∃ s', LFUCache.remove s key = (false, s') ∧ WF s' ∧
      s'.capacity = s.capacity ∧
      s'.min_frequency = s.min_frequency ∧
      s'.values = removeKV s.values key ∧
      s'.values.length + 1 = s.values.length := by
  obtain ⟨hkn, hbn, hbun, hcor, hbs, hpos, hmlb, hlen, hcap, hacm⟩ := hwf
  have hmemk : (key, vc) ∈ s.values := lookup_mem hk
  have hck : key ∈ (lookupKV s.frequency_bin vc.count).getD [] :=
    hcor (key, vc) hmemk
  obtain ⟨bin, hbin, hkbin⟩ := mem_option_getD hck
  have hbd : (lookupKV s.frequency_bin vc.count).getD [] = bin := by
    rw [hbin]
    rfl
  have hbinnd : bin.Nodup := hbun (vc.count, bin) (lookup_mem hbin)
  have hlen1 : (removeKV s.values key).length + 1 = s.values.length :=
    length_removeKV hkn hk
  have hlkfb_c : lookupKV (insertKV s.frequency_bin vc.count (lhsRemove bin key))
      vc.count = some (lhsRemove bin key) := lookup_insertKV_self _ _ _
  have hlkfb_other : ∀ f, f ≠ vc.count →
      lookupKV (insertKV s.frequency_bin vc.count (lhsRemove bin key)) f =
        lookupKV s.frequency_bin f := by
    intro f hf
    exact lookup_insertKV_ne _ _ hf
  have hmem_fb : ∀ q, q ∈ insertKV s.frequency_bin vc.count (lhsRemove bin key) →
      q = (vc.count, lhsRemove bin key) ∨ (q ∈ s.frequency_bin ∧ q.1 ≠ vc.count) := by
    intro q hq
    exact mem_insertKV_nodup hbn hq
  rw [remove_eq_present hk, hbd]
  refine ⟨_, rfl, ⟨?_, ?_, ?_, ?_, ?_, ?_, ?_, ?_, hcap, ?_⟩, rfl, rfl, rfl, hlen1⟩
  · exact nodup_keys_removeKV _ hkn
  · exact nodup_keys_insertKV _ hbn
  · intro q hq
    rcases hmem_fb q hq with rfl | ⟨hq1, hq2⟩
    · exact nodup_lhsRemove _ hbinnd
    · exact hbun q hq1
  · intro p hp
    obtain ⟨hpl, hpne⟩ := mem_removeKV.mp hp
    have hcp : p.1 ∈ (lookupKV s.frequency_bin p.2.count).getD [] := hcor p hpl
    by_cases hd : p.2.count = vc.count
    · rw [hd, hlkfb_c]
      rw [hd, hbin] at hcp
      have hpb : p.1 ∈ bin := by simpa using hcp
      simpa using mem_lhsRemove.mpr ⟨hpb, hpne⟩
    · rw [hlkfb_other _ hd]
      exact hcp
  · intro q hq x hx
    rcases hmem_fb q hq with rfl | ⟨hq1, hq2⟩
    · obtain ⟨hxb, hxk⟩ := mem_lhsRemove.mp hx
      rw [lookup_removeKV_ne _ hxk]
      exact hbs (vc.count, bin) (lookup_mem hbin) x hxb
    · have hbsq : (lookupKV s.values x).map ValueCounter.count = some q.1 :=
        hbs q hq1 x hx
      have hxk : x ≠ key := by
        rintro rfl
        rw [hk] at hbsq
        simp at hbsq
        exact hq2 hbsq.symm
      rw [lookup_removeKV_ne _ hxk]
      exact hbsq
  · intro p hp
    exact hpos p (mem_removeKV.mp hp).1
  · intro p hp
    exact hmlb p (mem_removeKV.mp hp).1
  · show (removeKV s.values key).length ≤ s.capacity
    omega
  · intro hcaple
    exfalso
    have hcl : s.capacity ≤ (removeKV s.values key).length := hcaple
    omega

end PreservationLemmas2

section PreservationLemmas3

variable {K V : Type} [DecidableEq K]

theorem WF_insert_new {s2 : LFUCache K V} {key : K} (value : V)
    (hwf2 : WF s2)
    (hk : lookupKV s2.values key = none)
    (hroom : s2.values.length < s2.capacity) :
    WF ⟨insertKV s2.values key ⟨value, 1⟩,
        insertKV s2.frequency_bin 1
          (lhsInsert ((lookupKV s2.frequency_bin 1).getD []) key),
        s2.capacity, 1⟩ ∧
    MinInv ⟨insertKV s2.values key ⟨value, 1⟩,
        insertKV s2.frequency_bin 1
          (lhsInsert ((lookupKV s2.frequency_bin 1).getD []) key),
        s2.capacity, 1⟩ := by
  obtain ⟨hkn, hbn, hbun, hcor, hbs, hpos, hmlb, hlen, hcap, hacm⟩ := hwf2
  have hknot : key ∉ s2.values.map Prod.fst := (lookup_eq_none_iff _ _).mp hk
  have hkey_not_bucket : ∀ f ob, lookupKV s2.frequency_bin f = some ob →
      key ∉ ob := by
    intro f ob hob hkob
    have hh : (lookupKV s2.values key).map ValueCounter.count = some f :=
      hbs (f, ob) (lookup_mem hob) key hkob
    rw [hk] at hh
    simp at hh
  have hlkv_key : lookupKV (insertKV s2.values key ⟨value, 1⟩) key =
      some ⟨value, 1⟩ := lookup_insertKV_self _ _ _
  have hlkv_ne : ∀ x, x ≠ key →
      lookupKV (insertKV s2.values key ⟨value, 1⟩) x = lookupKV s2.values x := by
    intro x hx
    exact lookup_insertKV_ne _ _ hx
  have hlkfb_1 : lookupKV (insertKV s2.frequency_bin 1
      (lhsInsert ((lookupKV s2.frequency_bin 1).getD []) key)) 1 =
      some (lhsInsert ((lookupKV s2.frequency_bin 1).getD []) key) :=
    lookup_insertKV_self _ _ _
  have hlkfb_other : ∀ f, f ≠ 1 →
      lookupKV (insertKV s2.frequency_bin 1
        (lhsInsert ((lookupKV s2.frequency_bin 1).getD []) key)) f =
      lookupKV s2.frequency_bin f := by
    intro f hf
    exact lookup_insertKV_ne _ _ hf
  have hlenN : (insertKV s2.values key ⟨value, 1⟩).length = s2.values.length + 1 :=
    length_insertKV_not_mem _ hknot
  have hmem_vals : ∀ p, p ∈ insertKV s2.values key ⟨value, 1⟩ →
      p = (key, ⟨value, 1⟩) ∨ (p ∈ s2.values ∧ p.1 ≠ key) := by
    intro p hp
    exact mem_insertKV_nodup hkn hp
  have hmem_fb : ∀ q, q ∈ insertKV s2.frequency_bin 1
      (lhsInsert ((lookupKV s2.frequency_bin 1).getD []) key) →
      q = (1, lhsInsert ((lookupKV s2.frequency_bin 1).getD []) key) ∨
        (q ∈ s2.frequency_bin ∧ q.1 ≠ 1) := by
    intro q hq
    exact mem_insertKV_nodup hbn hq
  refine ⟨⟨nodup_keys_insertKV _ hkn, nodup_keys_insertKV _ hbn,
    ?_, ?_, ?_, ?_, ?_, ?_, hcap, ?_⟩, ?_⟩
  · intro q hq
    rcases hmem_fb q hq with rfl | ⟨hq1, hq2⟩
    · show (lhsInsert ((lookupKV s2.frequency_bin 1).getD []) key).Nodup
      apply nodup_lhsInsert
      cases hob : lookupKV s2.frequency_bin 1 with
      | none => simp
      | some ob => simpa using hbun (1, ob) (lookup_mem hob)
    · exact hbun q hq1
  · intro p hp
    rcases hmem_vals p hp with rfl | ⟨hpl, hpne⟩
    · show key ∈ (lookupKV (insertKV s2.frequency_bin 1
        (lhsInsert ((lookupKV s2.frequency_bin 1).getD []) key)) 1).getD []
      rw [hlkfb_1]
      simpa using mem_lhsInsert.mpr (Or.inr rfl)
    · have hcp : p.1 ∈ (lookupKV s2.frequency_bin p.2.count).getD [] := hcor p hpl
      by_cases hd : p.2.count = 1
      · rw [hd, hlkfb_1]
        rw [hd] at hcp
        simpa using mem_lhsInsert.mpr (Or.inl hcp)
      · rw [hlkfb_other _ hd]
        exact hcp
  · intro q hq x hx
    rcases hmem_fb q hq with rfl | ⟨hq1, hq2⟩
    · rcases mem_lhsInsert.mp hx with hx1 | rfl
      · obtain ⟨ob, hob, hxob⟩ := mem_option_getD hx1
        have hxkey : x ≠ key := by
          rintro rfl
          exact hkey_not_bucket 1 ob hob hxob
        rw [hlkv_ne x hxkey]
        exact hbs (1, ob) (lookup_mem hob) x hxob
      · rw [hlkv_key]
        simp
    · have hbsq : (lookupKV s2.values x).map ValueCounter.count = some q.1 :=
        hbs q hq1 x hx
      have hxkey : x ≠ key := by
        rintro rfl
        rw [hk] at hbsq
        simp at hbsq
      rw [hlkv_ne x hxkey]
      exact hbsq
  · intro p hp
    rcases hmem_vals p hp with rfl | ⟨hpl, -⟩
    · show 1 ≤ 1
      omega
    · exact hpos p hpl
  · intro p hp
    rcases hmem_vals p hp with rfl | ⟨hpl, -⟩
    · show 1 ≤ 1
      omega
    · exact hpos p hpl
  · show (insertKV s2.values key ⟨value, 1⟩).length ≤ s2.capacity
    omega
  · intro hcaple
    show (lookupKV (insertKV s2.frequency_bin 1
      (lhsInsert ((lookupKV s2.frequency_bin 1).getD []) key)) 1).getD [] ≠ []
    rw [hlkfb_1]
    simpa using lhsInsert_ne_nil _ _
  · intro hne
    constructor
    · show (lookupKV (insertKV s2.frequency_bin 1
        (lhsInsert ((lookupKV s2.frequency_bin 1).getD []) key)) 1).getD [] ≠ []
      rw [hlkfb_1]
      simpa using lhsInsert_ne_nil _ _
    · intro q hq hqne
      rcases hmem_fb q hq with rfl | ⟨hq1, hq2⟩
      · show 1 ≤ 1
        omega
      · cases hq2l : q.2 with
        | nil => exact absurd hq2l hqne
        | cons x xs =>
            have hx : x ∈ q.2 := by
              rw [hq2l]
              exact List.mem_cons_self _ _
            have hbsq : (lookupKV s2.values x).map ValueCounter.count = some q.1 :=
              hbs q hq1 x hx
            cases hlx : lookupKV s2.values x with
            | none => rw [hlx] at hbsq; simp at hbsq
            | some vcx =>
                rw [hlx] at hbsq
                simp at hbsq
                have h1 : 1 ≤ vcx.count := hpos (x, vcx) (lookup_mem hlx)
                show 1 ≤ q.1
                omega

theorem set_spec {s : LFUCache K V} (hwf : WF s) (key : K) (value : V) :
    ∃ s', LFUCache.set s key value = some s' ∧ WF s' ∧
      s'.capacity = s.capacity ∧
      (∃ c, lookupKV s'.values key = some ⟨value, c⟩) ∧
      (MinInv s → MinInv s') := by
  have hwfKeep := hwf
  obtain ⟨hkn, hbn, hbun, hcor, hbs, hpos, hmlb, hlen, hcap, hacm⟩ := hwfKeep
  cases hl : lookupKV s.values key with
  | some vc =>
      have hmemk : (key, vc) ∈ s.values := lookup_mem hl
      have hkeymem : key ∈ s.values.map Prod.fst :=
        List.mem_map.mpr ⟨(key, vc), hmemk, rfl⟩
      have hlen1 : (insertKV s.values key ⟨value, vc.count⟩).length =
          s.values.length := length_insertKV_mem _ hkeymem
      have hwf1 : WF ⟨insertKV s.values key ⟨value, vc.count⟩,
          s.frequency_bin, s.capacity, s.min_frequency⟩ := by
        refine ⟨nodup_keys_insertKV _ hkn, hbn, hbun, ?_, ?_, ?_, ?_, ?_, hcap, ?_⟩
        · intro p hp
          rcases mem_insertKV_nodup hkn hp with rfl | ⟨hpl, -⟩
          · show key ∈ (lookupKV s.frequency_bin vc.count).getD []
            exact hcor (key, vc) hmemk
          · exact hcor p hpl
        · intro q hq x hx
          have hbsq : (lookupKV s.values x).map ValueCounter.count = some q.1 :=
            hbs q hq x hx
          by_cases hxk : x = key
          · subst hxk
            rw [hl] at hbsq
            simp at hbsq
            rw [lookup_insertKV_self]
            simpa using hbsq
          · rw [lookup_insertKV_ne _ _ hxk]
            exact hbsq
        · intro p hp
          rcases mem_insertKV_nodup hkn hp with rfl | ⟨hpl, -⟩
          · show 1 ≤ vc.count
            exact hpos (key, vc) hmemk
          · exact hpos p hpl
        · intro p hp
          rcases mem_insertKV_nodup hkn hp with rfl | ⟨hpl, -⟩
          · show s.min_frequency ≤ vc.count
            exact hmlb (key, vc) hmemk
          · exact hmlb p hpl
        · show (insertKV s.values key ⟨value, vc.count⟩).length ≤ s.capacity
          omega
        · intro hcaple
          have hc2 : s.capacity ≤ s.values.length := by
            have hc1 : s.capacity ≤
                (insertKV s.values key ⟨value, vc.count⟩).length := hcaple
            omega
          exact hacm hc2
      have hmi1 : MinInv s → MinInv ⟨insertKV s.values key ⟨value, vc.count⟩,
          s.frequency_bin, s.capacity, s.min_frequency⟩ := by
        intro hmi hne1
        exact hmi (List.ne_nil_of_mem hmemk)
      have hlk1 : lookupKV (insertKV s.values key ⟨value, vc.count⟩) key =
          some ⟨value, vc.count⟩ := lookup_insertKV_self _ _ _
      obtain ⟨s', hupd, hwfs', hvals', hcap', -, -, hmi'⟩ :=
        update_frequency_bin_spec hwf1 hlk1
      rw [set_eq_existing hl]
      refine ⟨s', hupd, hwfs', by rw [hcap'], ⟨vc.count + 1, ?_⟩,
        fun hm => hmi' (hmi1 hm)⟩
      rw [hvals']
      exact lookup_insertKV_self _ _ _
  | none =>
      by_cases hfull : s.capacity ≤ s.values.length
      · obtain ⟨b0, hb0, hb0ne⟩ := getD_ne_nil (hacm hfull)
        cases b0 with
        | nil => exact absurd rfl hb0ne
        | cons k0 rest =>
            obtain ⟨s2, hev, hwf2, hvals2, hcap2, -, hlen2, -⟩ :=
              evict_spec hwf hb0
            have hk2 : lookupKV s2.values key = none := by
              rw [hvals2]
              by_cases hkk : key = k0
              · subst hkk
                exact lookup_removeKV_self _ _
              · rw [lookup_removeKV_ne _ hkk]
                exact hl
            have hroom : s2.values.length < s2.capacity := by
              rw [hcap2]
              omega
            obtain ⟨hwfN, hmiN⟩ := WF_insert_new value hwf2 hk2 hroom
            have hstep : (if s.capacity ≤ s.values.length
                then LFUCache.evict s else some s) = some s2 := by
              rw [if_pos hfull, hev]
            rw [set_eq_new hl hstep]
            refine ⟨_, rfl, hwfN, ?_, ⟨1, ?_⟩, fun _ => hmiN⟩
            · show s2.capacity = s.capacity
              exact hcap2
            · show lookupKV (insertKV s2.values key ⟨value, 1⟩) key =
                some ⟨value, 1⟩
              exact lookup_insertKV_self _ _ _
      · have hroom : s.values.length < s.capacity := by omega
        obtain ⟨hwfN, hmiN⟩ := WF_insert_new value hwf hl hroom
        have hstep : (if s.capacity ≤ s.values.length
            then LFUCache.evict s else some s) = some s := by
          rw [if_neg hfull]
        rw [set_eq_new hl hstep]
        exact ⟨_, rfl, hwfN, rfl, ⟨1, lookup_insertKV_self _ _ _⟩, fun _ => hmiN⟩

theorem get_spec {s : LFUCache K V} (hwf : WF s) (key : K) :
    ∃ r s', LFUCache.get s key = some (r, s') ∧ WF s' ∧
      s'.capacity = s.capacity ∧
      (MinInv s → MinInv s') ∧
      r = (lookupKV s.values key).map ValueCounter.value := by
  cases hl : lookupKV s.values key with
  | none => exact ⟨none, s, get_eq_absent hl, hwf, rfl, fun h => h, rfl⟩
  | some vc =>
      obtain ⟨s1, hupd, hwf1, hvals1, hcap1, -, -, hmi1⟩ :=
        update_frequency_bin_spec hwf hl
      refine ⟨_, s1, get_eq_present hl hupd, hwf1, hcap1, hmi1, ?_⟩
      rw [hvals1, lookup_insertKV_self]
      simp

theorem get_mut_spec {s : LFUCache K V} (hwf : WF s) (key : K) :
    ∃ r s', LFUCache.get_mut s key = some (r, s') ∧ WF s' ∧
      s'.capacity = s.capacity ∧
      (MinInv s → MinInv s') ∧
      r = (lookupKV s.values key).map ValueCounter.value := by
  cases hl : lookupKV s.values key with
  | none =>
      exact ⟨none, s, get_mut_eq_absent hl, hwf, rfl, fun h => h, rfl⟩
  | some vc =>
      obtain ⟨s1, hupd, hwf1, hvals1, hcap1, -, -, hmi1⟩ :=
        update_frequency_bin_spec hwf hl
      refine ⟨_, s1, get_mut_eq_present hl hupd, hwf1, hcap1, hmi1, ?_⟩
      rw [hvals1, lookup_insertKV_self]
      simp

theorem with_capacity_spec (n : Nat) (hn : 0 < n) :
    (LFUCache.with_capacity n : Option (LFUCache K V)) = some ⟨[], [], n, 0⟩ ∧
    WF (⟨[], [], n, 0⟩ : LFUCache K V) := by
  constructor
  · unfold LFUCache.with_capacity
    rw [if_neg (by omega)]
  · refine ⟨by simp, by simp, by simp, by simp, by simp, by simp, by simp,
      by simp, hn, ?_⟩
    intro h
    exfalso
    have hh : n ≤ 0 := h
    omega

theorem WF_runSets {s : LFUCache K V} (hwf : WF s) (ops : List (K × V)) :
    ∃ s', runSets s ops = some s' ∧ WF s' ∧ s'.capacity = s.capacity := by
  induction ops generalizing s with
  | nil => exact ⟨s, rfl, hwf, rfl⟩
  | cons p rest ih =>
      obtain ⟨k, v⟩ := p
      obtain ⟨s1, hset, hwf1, hcap1, -, -⟩ := set_spec hwf k v
      obtain ⟨s', hrun, hwf', hcap'⟩ := ih hwf1
      refine ⟨s', ?_, hwf', by rw [hcap', hcap1]⟩
      show (match LFUCache.set s k v with
            | none => none
            | some s1 => runSets s1 rest) = some s'
      rw [hset]
      exact hrun

end PreservationLemmas3

section EffectLemmas

variable {K V : Type} [DecidableEq K]

theorem set_lookup_new {s : LFUCache K V} {k2 : K} {v : V} {s' : LFUCache K V}
    (hl : lookupKV s.values k2 = none) (hset : LFUCache.set s k2 v = some s') :
    lookupKV s'.values k2 = some ⟨v, 1⟩ := by
  cases hev : (if s.capacity ≤ s.values.length
      then LFUCache.evict s else some s) with
  | none =>
      simp only [LFUCache.set, hl, hev] at hset
      exact Option.noConfusion hset
  | some s2 =>
      rw [set_eq_new hl hev] at hset
      have hs := Option.some.inj hset
      rw [← hs]
      exact lookup_insertKV_self _ _ _

theorem set_lookup_bump {s : LFUCache K V} {k2 : K} {v : V} {vc : ValueCounter V}
    {s' : LFUCache K V}
    (hl : lookupKV s.values k2 = some vc) (hset : LFUCache.set s k2 v = some s') :
    lookupKV s'.values k2 = some ⟨v, vc.count + 1⟩ := by
  rw [set_eq_existing hl] at hset
  have hlkM : lookupKV (insertKV s.values k2 ⟨v, vc.count⟩) k2 =
      some ⟨v, vc.count⟩ := lookup_insertKV_self _ _ _
  cases hbin : lookupKV s.frequency_bin vc.count with
  | none =>
      simp only [LFUCache.update_frequency_bin, hlkM, hbin] at hset
      exact Option.noConfusion hset
  | some bin =>
      rw [@update_frequency_bin_eq K V _
        ⟨insertKV s.values k2 ⟨v, vc.count⟩, s.frequency_bin,
         s.capacity, s.min_frequency⟩ k2 ⟨v, vc.count⟩ bin hlkM hbin] at hset
      have hs := Option.some.inj hset
      rw [← hs]
      exact lookup_insertKV_self _ _ _

theorem set_lookup_other {s : LFUCache K V} {k2 : K} {v : V} {s' : LFUCache K V}
    (hset : LFUCache.set s k2 v = some s') (k : K) (hne : k ≠ k2) :
    lookupKV s'.values k = lookupKV s.values k ∨ lookupKV s'.values k = none := by
  cases hl : lookupKV s.values k2 with
  | some vc =>
      rw [set_eq_existing hl] at hset
      have hlkM : lookupKV (insertKV s.values k2 ⟨v, vc.count⟩) k2 =
          some ⟨v, vc.count⟩ := lookup_insertKV_self _ _ _
      cases hbin : lookupKV s.frequency_bin vc.count with
      | none =>
          simp only [LFUCache.update_frequency_bin, hlkM, hbin] at hset
          exact Option.noConfusion hset
      | some bin =>
          rw [@update_frequency_bin_eq K V _
            ⟨insertKV s.values k2 ⟨v, vc.count⟩, s.frequency_bin,
             s.capacity, s.min_frequency⟩ k2 ⟨v, vc.count⟩ bin hlkM hbin] at hset
          have hs := Option.some.inj hset
          rw [← hs]
          left
          show lookupKV (insertKV (insertKV s.values k2 ⟨v, vc.count⟩) k2
            ⟨v, vc.count + 1⟩) k = lookupKV s.values k
          rw [lookup_insertKV_ne _ _ hne, lookup_insertKV_ne _ _ hne]
  | none =>
      cases hev : (if s.capacity ≤ s.values.length
          then LFUCache.evict s else some s) with
      | none =>
          simp only [LFUCache.set, hl, hev] at hset
          exact Option.noConfusion hset
      | some s2 =>
          rw [set_eq_new hl hev] at hset
          have hs := Option.some.inj hset
          rw [← hs]
          have hstep : lookupKV s'.values k = lookupKV s2.values k := by
            rw [← hs]
            exact lookup_insertKV_ne _ _ hne
          by_cases hfull : s.capacity ≤ s.values.length
          · rw [if_pos hfull] at hev
            cases hbin : lookupKV s.frequency_bin s.min_frequency with
            | none =>
                simp only [LFUCache.evict, hbin] at hev
                exact Option.noConfusion hev
            | some bin =>
                cases bin with
                | nil =>
                    simp only [LFUCache.evict, hbin] at hev
                    exact Option.noConfusion hev
                | cons k0 rest =>
                    rw [evict_eq hbin] at hev
                    have hs2 := Option.some.inj hev
                    rw [← hs2]
                    by_cases hk0 : k = k0
                    · subst hk0
                      right
                      show lookupKV (insertKV (removeKV s.values k) k2 ⟨v, 1⟩) k
                        = none
                      rw [lookup_insertKV_ne _ _ hne]
                      exact lookup_removeKV_self _ _
                    · left
                      show lookupKV (insertKV (removeKV s.values k0) k2 ⟨v, 1⟩) k
                        = lookupKV s.values k
                      rw [lookup_insertKV_ne _ _ hne]
                      exact lookup_removeKV_ne _ hk0
          · rw [if_neg hfull] at hev
            have hs2 := Option.some.inj hev
            rw [← hs2]
            left
            exact lookup_insertKV_ne _ _ hne

theorem get_lookup_eq {s : LFUCache K V} {k2 : K} {r : Option V}
    {s' : LFUCache K V}
    (hget : LFUCache.get s k2 = some (r, s')) :
    (∀ k, k ≠ k2 → lookupKV s'.values k = lookupKV s.values k) ∧
    (∀ vc, lookupKV s.values k2 = some vc →
        lookupKV s'.values k2 = some ⟨vc.value, vc.count + 1⟩) := by
  cases hl : lookupKV s.values k2 with
  | none =>
      rw [get_eq_absent hl] at hget
      have hpair := Option.some.inj hget
      have hs : s = s' := congrArg Prod.snd hpair
      constructor
      · intro k hk
        rw [← hs]
      · intro vc hvc
        exact Option.noConfusion hvc
  | some vc0 =>
      cases hupd : LFUCache.update_frequency_bin s k2 with
      | none =>
          simp only [LFUCache.get, hl, hupd] at hget
          exact Option.noConfusion hget
      | some s1 =>
          rw [get_eq_present hl hupd] at hget
          have hpair := Option.some.inj hget
          have hs : s1 = s' := congrArg Prod.snd hpair
          cases hbin : lookupKV s.frequency_bin vc0.count with
          | none =>
              simp only [LFUCache.update_frequency_bin, hl, hbin] at hupd
              exact Option.noConfusion hupd
          | some bin =>
              rw [update_frequency_bin_eq hl hbin] at hupd
              have hs1 := Option.some.inj hupd
              constructor
              · intro k hk
                rw [← hs, ← hs1]
                exact lookup_insertKV_ne _ _ hk
              · intro vc hvc
                have hvc0 : vc0 = vc := Option.some.inj hvc
                subst hvc0
                rw [← hs, ← hs1]
                exact lookup_insertKV_self _ _ _

theorem get_mut_lookup_eq {s : LFUCache K V} {k2 : K} {r : Option V}
    {s' : LFUCache K V}
    (hget : LFUCache.get_mut s k2 = some (r, s')) :
    (∀ k, k ≠ k2 → lookupKV s'.values k = lookupKV s.values k) ∧
    (∀ vc, lookupKV s.values k2 = some vc →
        lookupKV s'.values k2 = some ⟨vc.value, vc.count + 1⟩) := by
  cases hl : lookupKV s.values k2 with
  | none =>
      rw [get_mut_eq_absent hl] at hget
      have hpair := Option.some.inj hget
      have hs : s = s' := congrArg Prod.snd hpair
      constructor
      · intro k hk
        rw [← hs]
      · intro vc hvc
        exact Option.noConfusion hvc
  | some vc0 =>
      cases hupd : LFUCache.update_frequency_bin s k2 with
      | none =>
          simp only [LFUCache.get_mut, hl, hupd] at hget
          exact Option.noConfusion hget
      | some s1 =>
          rw [get_mut_eq_present hl hupd] at hget
          have hpair := Option.some.inj hget
          have hs : s1 = s' := congrArg Prod.snd hpair
          cases hbin : lookupKV s.frequency_bin vc0.count with
          | none =>
              simp only [LFUCache.update_frequency_bin, hl, hbin] at hupd
              exact Option.noConfusion hupd
          | some bin =>
              rw [update_frequency_bin_eq hl hbin] at hupd
              have hs1 := Option.some.inj hupd
              constructor
              · intro k hk
                rw [← hs, ← hs1]
                exact lookup_insertKV_ne _ _ hk
              · intro vc hvc
                have hvc0 : vc0 = vc := Option.some.inj hvc
                subst hvc0
                rw [← hs, ← hs1]
                exact lookup_insertKV_self _ _ _

theorem remove_lookup_other (s : LFUCache K V) (k2 k : K) (hne : k ≠ k2) :
    lookupKV ((LFUCache.remove s k2).2).values k = lookupKV s.values k := by
  cases hl : lookupKV s.values k2 with
  | none => rw [remove_eq_absent hl]
  | some vc =>
      rw [remove_eq_present hl]
      exact lookup_removeKV_ne _ hne

theorem evict_lookup {s s' : LFUCache K V}
    (hev : LFUCache.evict s = some s') (k : K) :
    lookupKV s'.values k = lookupKV s.values k ∨ lookupKV s'.values k = none := by
  cases hbin : lookupKV s.frequency_bin s.min_frequency with
  | none =>
      simp only [LFUCache.evict, hbin] at hev
      exact Option.noConfusion hev
  | some bin =>
      cases bin with
      | nil =>
          simp only [LFUCache.evict, hbin] at hev
          exact Option.noConfusion hev
      | cons k0 rest =>
          rw [evict_eq hbin] at hev
          have hs := Option.some.inj hev
          rw [← hs]
          by_cases hk : k = k0
          · subst hk
            right
            exact lookup_removeKV_self _ _
          · left
            exact lookup_removeKV_ne _ hk

end EffectLemmas

section ReachabilityLemmas

variable {K V : Type} [DecidableEq K]

theorem WF_applyOp {s s' : LFUCache K V} (hwf : WF s) {op : Op K V}
    (happ : applyOp s op = some s') : WF s' := by
  cases op with
  | setOp k v =>
      obtain ⟨s1, hset, hwf1, -, -, -⟩ := set_spec hwf k v
      have h : LFUCache.set s k v = some s' := happ
      rw [hset] at h
      rw [← Option.some.inj h]
      exact hwf1
  | getOp k =>
      simp only [applyOp] at happ
      obtain ⟨r1, s1, hget, hwf1, -, -, -⟩ := get_spec hwf k
      rw [hget] at happ
      have hs : s1 = s' := Option.some.inj happ
      rw [← hs]
      exact hwf1
  | getMutOp k =>
      simp only [applyOp] at happ
      obtain ⟨r1, s1, hget, hwf1, -, -, -⟩ := get_mut_spec hwf k
      rw [hget] at happ
      have hs : s1 = s' := Option.some.inj happ
      rw [← hs]
      exact hwf1
  | removeOp k =>
      have hs : (LFUCache.remove s k).2 = s' := Option.some.inj happ
      cases hl : lookupKV s.values k with
      | none =>
          rw [remove_eq_absent hl] at hs
          rw [← hs]
          exact hwf
      | some vc =>
          obtain ⟨s1, hrem, hwf1, -, -, -, -⟩ := remove_spec_present hwf hl
          rw [hrem] at hs
          have hs1 : s1 = s' := hs
          rw [← hs1]
          exact hwf1
  | evictOp =>
      have hev : LFUCache.evict s = some s' := happ
      cases hbin : lookupKV s.frequency_bin s.min_frequency with
      | none =>
          simp only [LFUCache.evict, hbin] at hev
          exact Option.noConfusion hev
      | some bin =>
          cases bin with
          | nil =>
              simp only [LFUCache.evict, hbin] at hev
              exact Option.noConfusion hev
          | cons k0 rest =>
              obtain ⟨s1, hev1, hwf1, -, -, -, -, -⟩ := evict_spec hwf hbin
              rw [hev1] at hev
              rw [← Option.some.inj hev]
              exact hwf1

theorem WF_runOps {s : LFUCache K V} (hwf : WF s) (ops : List (Op K V))
    {s' : LFUCache K V} (hrun : runOps s ops = some s') : WF s' := by
  induction ops generalizing s with
  | nil =>
      have hs : s = s' := Option.some.inj hrun
      rw [← hs]
      exact hwf
  | cons op rest ih =>
      cases happ : applyOp s op with
      | none =>
          simp only [runOps, happ] at hrun
          exact Option.noConfusion hrun
      | some s1 =>
          simp only [runOps, happ] at hrun
          exact ih (WF_applyOp hwf happ) hrun

end ReachabilityLemmas

section ClaimTheorems

/-- C1 (amended): in a well-formed cache state whose bucket at the
min_frequency watermark is non-empty — which holds in every reachable state
in which no earlier remove or direct evict has drained that bucket — evict
succeeds and removes exactly one key: the oldest (front) member of that
bucket; its stored count equals min_frequency and is minimal among the
counts of all keys in the store, and every other key is untouched. -/
theorem c1_evict_min_frequency {K V : Type} [DecidableEq K] {s : LFUCache K V}
    {k0 : K} {rest : List K}
    (hwf : WF s)
    (hbin : lookupKV s.frequency_bin s.min_frequency = some (k0 :: rest)) :
    ∃ s' vc0, LFUCache.evict s = some s' ∧
      lookupKV s.values k0 = some vc0 ∧
      vc0.count = s.min_frequency ∧
      (∀ p ∈ s.values, vc0.count ≤ p.2.count) ∧
      lookupKV s'.values k0 = none ∧
      (∀ x, x ≠ k0 → lookupKV s'.values x = lookupKV s.values x) ∧
      LFUCache.len s' + 1 = LFUCache.len s := by
  have hmlb := hwf.2.2.2.2.2.2.1
  obtain ⟨s', hev, hwf', hvals', hcap', hmin', hlen', vc0, hvc0, hvc0c⟩ :=
    evict_spec hwf hbin
  refine ⟨s', vc0, hev, hvc0, hvc0c, ?_, ?_, ?_, hlen'⟩
  · intro p hp
    rw [hvc0c]
    exact hmlb p hp
  · rw [hvals']
    exact lookup_removeKV_self _ _
  · intro x hx
    rw [hvals']
    exact lookup_removeKV_ne _ hx

/-- C1 witness: the amended theorem applied to the state holding only key 1
at count 1, where the watermark bucket is the singleton list of key 1. -/
theorem c1_evict_min_frequency_witness :
    WF oneKeyState ∧
    lookupKV oneKeyState.frequency_bin oneKeyState.min_frequency =
      some (1 :: []) ∧
    (∃ s' vc0, LFUCache.evict oneKeyState = some s' ∧
      lookupKV oneKeyState.values 1 = some vc0 ∧
      vc0.count = oneKeyState.min_frequency ∧
      (∀ p ∈ oneKeyState.values, vc0.count ≤ p.2.count) ∧
      lookupKV s'.values 1 = none ∧
      (∀ x, x ≠ 1 → lookupKV s'.values x = lookupKV oneKeyState.values x) ∧
      LFUCache.len s' + 1 = LFUCache.len oneKeyState) :=
  ⟨by decide, by decide,
   @c1_evict_min_frequency Nat Nat _ oneKeyState 1 [] (by decide) (by decide)⟩

/-- C1 counterexample: the reachable state after writes of keys 1 and 2, a
read of 1 and a removal of 2 (capacity 2) is non-empty, yet evict removes
nothing: it stops fatally on the drained watermark bucket, refuting the
original claim that eviction removes a minimal-frequency key from every
reachable non-empty state. -/
theorem c1_evict_counterexample :
    LFUCache.with_capacity 2 = some emptyCache2 ∧
    runOps emptyCache2
      [Op.setOp 1 1, Op.setOp 2 2, Op.getOp 1, Op.removeOp 2] =
      some staleState ∧
    staleState.values ≠ [] ∧
    LFUCache.evict staleState = none := by decide

/-- C2: starting from any cache constructed with a positive capacity n, any
sequence of writes runs to completion and leaves at most n entries in the
store after every step (every prefix of a sequence is itself a sequence). -/
theorem c2_len_le_capacity {K V : Type} [DecidableEq K] (n : Nat) (hn : 0 < n)
    (s0 : LFUCache K V) (h0 : LFUCache.with_capacity n = some s0)
    (ops : List (K × V)) :
    ∃ s, runSets s0 ops = some s ∧ LFUCache.len s ≤ n := by
  obtain ⟨heq, hwf0⟩ := @with_capacity_spec K V _ n hn
  rw [h0] at heq
  have hs0 : s0 = ⟨[], [], n, 0⟩ := Option.some.inj heq
  subst hs0
  obtain ⟨s, hrun, hwf, hcap⟩ := WF_runSets hwf0 ops
  refine ⟨s, hrun, ?_⟩
  have hlen : s.values.length ≤ s.capacity := hwf.2.2.2.2.2.2.2.1
  have hc : s.capacity = n := hcap
  show s.values.length ≤ n
  omega

/-- C2 witness: three writes into a capacity-2 cache. -/
theorem c2_len_le_capacity_witness :
    0 < 2 ∧
    (LFUCache.with_capacity 2 : Option (LFUCache Nat Nat)) = some emptyCache2 ∧
    (∃ s, runSets emptyCache2 [(1, 1), (2, 2), (3, 3)] = some s ∧
      LFUCache.len s ≤ 2) :=
  ⟨by decide, by decide,
   c2_len_le_capacity 2 (by decide) emptyCache2 (by decide) [(1, 1), (2, 2), (3, 3)]⟩

/-- C3: the code's remove returns false even when the key was present: after
writing key 1 into a fresh capacity-2 cache, the key is contained, yet
removing it reports false.  The claim (remove returns true when the key was
present) states the documented intent, which the code contradicts. -/
theorem c3_remove_returns_false :
    LFUCache.set emptyCache2 1 1 = some oneKeyState ∧
    LFUCache.contains oneKeyState 1 = true ∧
    (LFUCache.remove oneKeyState 1).1 = false := by decide

/-- C4 (amended): set, get and get_mut preserve invariant 3 (the watermark
equals the smallest frequency with a non-empty bucket whenever the store is
non-empty) from any well-formed state satisfying it; remove and evict do not
update the watermark and can invalidate the invariant (see the
counterexample). -/
theorem c4_min_frequency_preserved {K V : Type} [DecidableEq K]
    {s : LFUCache K V} (hwf : WF s) (hmi : MinInv s) :
    (∀ k v s', LFUCache.set s k v = some s' → MinInv s') ∧
    (∀ k r s', LFUCache.get s k = some (r, s') → MinInv s') ∧
    (∀ k r s', LFUCache.get_mut s k = some (r, s') → MinInv s') := by
  refine ⟨?_, ?_, ?_⟩
  · intro k v s' hset
    obtain ⟨s1, hset1, -, -, -, hmi1⟩ := set_spec hwf k v
    rw [hset1] at hset
    have hs := Option.some.inj hset
    rw [← hs]
    exact hmi1 hmi
  · intro k r s' hget
    obtain ⟨r1, s1, hget1, -, -, hmi1, -⟩ := get_spec hwf k
    rw [hget1] at hget
    have hpair := Option.some.inj hget
    have hs : s1 = s' := congrArg Prod.snd hpair
    rw [← hs]
    exact hmi1 hmi
  · intro k r s' hget
    obtain ⟨r1, s1, hget1, -, -, hmi1, -⟩ := get_mut_spec hwf k
    rw [hget1] at hget
    have hpair := Option.some.inj hget
    have hs : s1 = s' := congrArg Prod.snd hpair
    rw [← hs]
    exact hmi1 hmi

/-- C4 witness: the amended theorem applied to the one-key state. -/
theorem c4_min_frequency_preserved_witness :
    WF oneKeyState ∧ MinInv oneKeyState ∧
    ((∀ k v s', LFUCache.set oneKeyState k v = some s' → MinInv s') ∧
     (∀ k r s', LFUCache.get oneKeyState k = some (r, s') → MinInv s') ∧
     (∀ k r s', LFUCache.get_mut oneKeyState k = some (r, s') → MinInv s')) :=
  ⟨by decide, by decide, c4_min_frequency_preserved (by decide) (by decide)⟩

/-- C4 counterexample: after the public remove of key 2 from the reachable
state where key 1 has been read once, the store is non-empty but the
watermark 1 names a drained bucket while bucket 2 is non-empty, so the
invariant fails right after a public operation completes. -/
theorem c4_min_frequency_counterexample :
    runOps emptyCache2
      [Op.setOp 1 1, Op.setOp 2 2, Op.getOp 1, Op.removeOp 2] =
      some staleState ∧
    staleState.values ≠ [] ∧
    ¬ MinInv staleState := by decide

/-- C5: a fresh key is stored with count 1; get, get_mut and an overwriting
set on a present key raise its count by exactly 1; and no public operation
ever lowers the count of a key that stays in the cache. -/
theorem c5_frequency_counter {K V : Type} [DecidableEq K] :
    (∀ (s : LFUCache K V) (k : K) (v : V) s', lookupKV s.values k = none →
        LFUCache.set s k v = some s' → lookupKV s'.values k = some ⟨v, 1⟩) ∧
    (∀ (s : LFUCache K V) (k : K) vc r s', lookupKV s.values k = some vc →
        LFUCache.get s k = some (r, s') →
        lookupKV s'.values k = some ⟨vc.value, vc.count + 1⟩) ∧
    (∀ (s : LFUCache K V) (k : K) vc r s', lookupKV s.values k = some vc →
        LFUCache.get_mut s k = some (r, s') →
        lookupKV s'.values k = some ⟨vc.value, vc.count + 1⟩) ∧
    (∀ (s : LFUCache K V) (k : K) (v : V) vc s', lookupKV s.values k = some vc →
        LFUCache.set s k v = some s' →
        lookupKV s'.values k = some ⟨v, vc.count + 1⟩) ∧
    (∀ (s : LFUCache K V) (op : Op K V) (k : K) vc vc' s',
        applyOp s op = some s' →
        lookupKV s.values k = some vc →
        lookupKV s'.values k = some vc' →
        vc.count ≤ vc'.count) := by
  refine ⟨fun s k v s' hl hset => set_lookup_new hl hset,
    fun s k vc r s' hl hget => (get_lookup_eq hget).2 vc hl,
    fun s k vc r s' hl hget => (get_mut_lookup_eq hget).2 vc hl,
    fun s k v vc s' hl hset => set_lookup_bump hl hset, ?_⟩
  intro s op k vc vc' s' happ hl hl'
  cases op with
  | setOp k2 v =>
      have hset : LFUCache.set s k2 v = some s' := happ
      by_cases hk : k = k2
      · subst hk
        have hb := set_lookup_bump hl hset
        rw [hl'] at hb
        have hbc : vc'.count = vc.count + 1 := by
          rw [Option.some.inj hb]
        omega
      · rcases set_lookup_other hset k hk with heq | hnone
        · rw [hl', hl] at heq
          have hcc : vc'.count = vc.count :=
            congrArg ValueCounter.count (Option.some.inj heq)
          omega
        · rw [hl'] at hnone
          exact Option.noConfusion hnone
  | getOp k2 =>
      simp only [applyOp] at happ
      cases hg : LFUCache.get s k2 with
      | none =>
          rw [hg] at happ
          exact Option.noConfusion happ
      | some pr =>
          obtain ⟨r0, s0⟩ := pr
          rw [hg] at happ
          have hs : s0 = s' := Option.some.inj happ
          subst hs
          by_cases hk : k = k2
          · subst hk
            have hb := (get_lookup_eq hg).2 vc hl
            rw [hl'] at hb
            have hbc : vc'.count = vc.count + 1 := by
              rw [Option.some.inj hb]
            omega
          · have heq := (get_lookup_eq hg).1 k hk
            rw [hl', hl] at heq
            have hcc : vc'.count = vc.count :=
              congrArg ValueCounter.count (Option.some.inj heq)
            omega
  | getMutOp k2 =>
      simp only [applyOp] at happ
      cases hg : LFUCache.get_mut s k2 with
      | none =>
          rw [hg] at happ
          exact Option.noConfusion happ
      | some pr =>
          obtain ⟨r0, s0⟩ := pr
          rw [hg] at happ
          have hs : s0 = s' := Option.some.inj happ
          subst hs
          by_cases hk : k = k2
          · subst hk
            have hb := (get_mut_lookup_eq hg).2 vc hl
            rw [hl'] at hb
            have hbc : vc'.count = vc.count + 1 := by
              rw [Option.some.inj hb]
            omega
          · have heq := (get_mut_lookup_eq hg).1 k hk
            rw [hl', hl] at heq
            have hcc : vc'.count = vc.count :=
              congrArg ValueCounter.count (Option.some.inj heq)
            omega
  | removeOp k2 =>
      have hs : (LFUCache.remove s k2).2 = s' := Option.some.inj happ
      by_cases hk : k = k2
      · subst hk
        rw [remove_eq_present hl] at hs
        have hnone : lookupKV (removeKV s.values k) k = none :=
          lookup_removeKV_self _ _
        rw [← hs] at hl'
        have hl2 : lookupKV (removeKV s.values k) k = some vc' := hl'
        rw [hnone] at hl2
        exact Option.noConfusion hl2
      · have heq := remove_lookup_other s k2 k hk
        rw [hs, hl', hl] at heq
        have hcc : vc'.count = vc.count :=
          congrArg ValueCounter.count (Option.some.inj heq)
        omega
  | evictOp =>
      rcases evict_lookup happ k with heq | hnone
      · rw [hl', hl] at heq
        have hcc : vc'.count = vc.count :=
          congrArg ValueCounter.count (Option.some.inj heq)
        omega
      · rw [hl'] at hnone
        exact Option.noConfusion hnone

/-- C5 witness: the fresh-insertion part applied to the empty capacity-2
cache, and the overwrite part applied to the resulting one-key state. -/
theorem c5_frequency_counter_witness :
    lookupKV emptyCache2.values 1 = none ∧
    LFUCache.set emptyCache2 1 1 = some oneKeyState ∧
    lookupKV oneKeyState.values 1 = some ⟨1, 1⟩ :=
  ⟨by decide, by decide,
   (@c5_frequency_counter Nat Nat _).1 emptyCache2 1 1 oneKeyState
     (by decide) (by decide)⟩

/-- C6: from any well-formed state, a write of value v under key k followed
immediately by a read of k succeeds and returns exactly v. -/
theorem c6_set_then_get {K V : Type} [DecidableEq K] (s : LFUCache K V)
    (k : K) (v : V) (hwf : WF s) :
    ∃ s' s'', LFUCache.set s k v = some s' ∧
      LFUCache.get s' k = some (some v, s'') := by
  obtain ⟨s', hset, hwf', -, ⟨c, hlk⟩, -⟩ := set_spec hwf k v
  obtain ⟨r, s'', hget, -, -, -, hr⟩ := get_spec hwf' k
  refine ⟨s', s'', hset, ?_⟩
  rw [hlk] at hr
  simp at hr
  rw [hget, hr]

/-- C6 witness: writing 5 under key 1 into the empty capacity-2 cache and
reading it back. -/
theorem c6_set_then_get_witness :
    WF emptyCache2 ∧
    (∃ s' s'', LFUCache.set emptyCache2 1 5 = some s' ∧
      LFUCache.get s' 1 = some (some 5, s'')) :=
  ⟨by decide, c6_set_then_get emptyCache2 1 5 (by decide)⟩

/-- C7: removing a contained key from a well-formed state makes an immediate
subsequent get report absent (leaving the state untouched) and shrinks the
entry count by exactly one. -/
theorem c7_remove_then_get {K V : Type} [DecidableEq K] (s : LFUCache K V)
    (k : K) (hwf : WF s) (hpresent : LFUCache.contains s k = true) :
    ∃ s', LFUCache.remove s k = (false, s') ∧
      LFUCache.get s' k = some (none, s') ∧
      LFUCache.len s' + 1 = LFUCache.len s := by
  cases hl : lookupKV s.values k with
  | none =>
      exfalso
      unfold LFUCache.contains at hpresent
      rw [hl] at hpresent
      simp at hpresent
  | some vc =>
      obtain ⟨s', hrem, hwf', -, -, hvals', hlen'⟩ := remove_spec_present hwf hl
      have hnone : lookupKV s'.values k = none := by
        rw [hvals']
        exact lookup_removeKV_self _ _
      exact ⟨s', hrem, get_eq_absent hnone, hlen'⟩

/-- C7 witness: removing key 1 from the one-key state. -/
theorem c7_remove_then_get_witness :
    WF oneKeyState ∧ LFUCache.contains oneKeyState 1 = true ∧
    (∃ s', LFUCache.remove oneKeyState 1 = (false, s') ∧
      LFUCache.get s' 1 = some (none, s') ∧
      LFUCache.len s' + 1 = LFUCache.len oneKeyState) :=
  ⟨by decide, by decide, c7_remove_then_get oneKeyState 1 (by decide) (by decide)⟩

/-- C8: construction with capacity 0 is a fatal error, and construction with
any positive capacity n yields an empty cache of capacity n. -/
theorem c8_with_capacity {K V : Type} :
    (LFUCache.with_capacity 0 : Option (LFUCache K V)) = none ∧
    ∀ n : Nat, 0 < n → ∃ s : LFUCache K V,
      LFUCache.with_capacity n = some s ∧
      LFUCache.len s = 0 ∧ s.capacity = n := by
  constructor
  · unfold LFUCache.with_capacity
    rw [if_pos (by omega)]
  · intro n hn
    refine ⟨⟨[], [], n, 0⟩, ?_, rfl, rfl⟩
    unfold LFUCache.with_capacity
    rw [if_neg (by omega)]

/-- C8 witness: capacities 0 and 1 over natural keys and values. -/
theorem c8_with_capacity_witness :
    (LFUCache.with_capacity 0 : Option (LFUCache Nat Nat)) = none ∧
    0 < 1 ∧
    (∃ s : LFUCache Nat Nat, LFUCache.with_capacity 1 = some s ∧
      LFUCache.len s = 0 ∧ s.capacity = 1) :=
  ⟨(@c8_with_capacity Nat Nat).1, by decide,
   (@c8_with_capacity Nat Nat).2 1 (by decide)⟩

/-- C9: contains and len take the cache by immutable borrow, so the cache
state after either call is exactly the state before it — in particular no
frequency counter, no bucket and no watermark changes — and they report
store membership and store size. -/
theorem c9_contains_len_pure {K V : Type} [DecidableEq K]
    (s : LFUCache K V) (k : K) :
    (containsOp s k).2 = s ∧
    (lenOp s).2 = s ∧
    (containsOp s k).1 = (lookupKV s.values k).isSome ∧
    (lenOp s).1 = s.values.length :=
  ⟨rfl, rfl, rfl, rfl⟩

/-- C10: on every freshly constructed cache the watermark is 0, no bucket
exists at frequency 0, and the public evict stops fatally on its first
unwrap. -/
theorem c10_evict_fresh_fatal {K V : Type} [DecidableEq K] (n : Nat)
    (hn : 0 < n) (s : LFUCache K V)
    (h : LFUCache.with_capacity n = some s) :
    LFUCache.evict s = none ∧ s.min_frequency = 0 ∧ s.values = [] ∧
    lookupKV s.frequency_bin s.min_frequency = none := by
  unfold LFUCache.with_capacity at h
  rw [if_neg (by omega)] at h
  have hs := Option.some.inj h
  rw [← hs]
  exact ⟨rfl, rfl, rfl, rfl⟩

/-- C10 witness: a fresh capacity-1 cache. -/
theorem c10_evict_fresh_fatal_witness :
    0 < 1 ∧
    (LFUCache.with_capacity 1 : Option (LFUCache Nat Nat)) =
      some ⟨[], [], 1, 0⟩ ∧
    (LFUCache.evict (⟨[], [], 1, 0⟩ : LFUCache Nat Nat) = none ∧
      (⟨[], [], 1, 0⟩ : LFUCache Nat Nat).min_frequency = 0 ∧
      (⟨[], [], 1, 0⟩ : LFUCache Nat Nat).values = [] ∧
      lookupKV (⟨[], [], 1, 0⟩ : LFUCache Nat Nat).frequency_bin
        (⟨[], [], 1, 0⟩ : LFUCache Nat Nat).min_frequency = none) :=
  ⟨by decide, by decide,
   c10_evict_fresh_fatal 1 (by decide) ⟨[], [], 1, 0⟩ (by decide)⟩

end ClaimTheorems
